import Mathlib

/-!
Verification of the text-chunking core of the RAG web application
(source: `src/app/api/lib` chunking module, functions `splitLongWord`,
`splitParagraphByWords` and `chunkText`).

Strings are modelled as `List Char`; an input string `s` corresponds to
`s.toList`.  The JavaScript length limit `maxCharLength` is a JS number used
only in integer comparisons, modelled as `Int`.  Each of the three source
functions first guards on `!str || maxCharLength <= 0`; the loop bodies run
only with a positive limit, so the loop-level helpers (`...Go`) take the
limit as a `Nat` (the wrappers pass `maxCharLength.toNat`).
-/

/-- Models JavaScript `s.split(sep)` for a one-character separator `sep`:
the list of maximal runs between occurrences of `sep`, empty runs included,
never the empty list (`"".split(sep) == [""]`). -/
def splitOnChar (sep : Char) : List Char → List (List Char)
  | [] => [[]]
  | c :: cs =>
      let r := splitOnChar sep cs
      if c = sep then [] :: r
      else (c :: r.headI) :: r.tail

/-- Models JavaScript `s.trim() === ""`: true iff every character of `s` is
whitespace (`Char.isWhitespace` stands in for the ECMAScript whitespace
class; the model is internally consistent in using this one class). -/
def isBlank (s : List Char) : Bool := s.all Char.isWhitespace

/-- The non-whitespace content of a string: all whitespace characters
removed (used to state content preservation). -/
def nonWS (s : List Char) : List Char := s.filter (fun c => !c.isWhitespace)

/-- Loop of `splitLongWord` (source lines 164-170): repeatedly slice off a
prefix of length `limit` while the remainder is longer than `limit`, then
keep the non-empty remainder.  The source reaches this loop only after the
`maxCharLength <= 0` guard, so every call has `0 < limit`; the conjunct
`0 < limit` in the condition (vacuously true at every actual call) makes
the recursion well-founded. -/
def splitLongWordGo (limit : Nat) (cur : List Char) : List (List Char) :=
  if h : 0 < limit ∧ limit < cur.length then
    cur.take limit :: splitLongWordGo limit (cur.drop limit)
  else if cur.length > 0 then [cur] else []
termination_by cur.length
decreasing_by simp [List.length_drop]; omega

/-- Models source `splitLongWord(word, maxCharLength)` (lines 159-172):
splits a very long word into parts, each not exceeding `maxCharLength`. -/
def splitLongWord (word : List Char) (maxCharLength : Int) : List (List Char) :=
  if word = [] ∨ maxCharLength ≤ 0 then []
  else splitLongWordGo maxCharLength.toNat word

/-- Loop of `splitParagraphByWords` (source lines 189-218): greedily pack
words into chunks of at most `limit` characters, joined by single spaces;
words longer than `limit` flush the accumulator and are hard-split.  The
long-word branch calls `splitLongWordGo limit w` directly: the source calls
`splitLongWord(word, maxCharLength)` there, which under the loop's guards
(`w ≠ []`, `0 < maxCharLength`, `limit = maxCharLength.toNat`) computes the
same list (lemma `splitLongWord_eq_go` below). -/
def splitParagraphByWordsGo (limit : Nat) :
    List (List Char) → List Char → List (List Char)
  | [], acc => if acc.length > 0 then [acc] else []
  | w :: ws, acc =>
    if w.length = 0 then splitParagraphByWordsGo limit ws acc
    else if limit < w.length then
      (if acc.length > 0 then [acc] else []) ++ splitLongWordGo limit w
        ++ splitParagraphByWordsGo limit ws []
    else
      let potentialSpace : List Char := if acc.length > 0 then [' '] else []
      if acc.length + potentialSpace.length + w.length ≤ limit then
        splitParagraphByWordsGo limit ws (acc ++ potentialSpace ++ w)
      else
        (if acc.length > 0 then [acc] else []) ++
          splitParagraphByWordsGo limit ws w

/-- Models source `splitParagraphByWords(paragraph, maxCharLength)`
(lines 179-219). -/
def splitParagraphByWords (paragraph : List Char) (maxCharLength : Int) :
    List (List Char) :=
  if paragraph = [] ∨ maxCharLength ≤ 0 then []
  else splitParagraphByWordsGo maxCharLength.toNat (splitOnChar ' ' paragraph) []

/-- Loop of `chunkText` (source lines 237-280): accumulate paragraphs into
`currentParagraphChunk`, appending `"\n"` for blank paragraphs when it
fits, flushing when the limit would be exceeded, and delegating over-long
paragraphs to `splitParagraphByWords` (called here through its loop with an
empty accumulator, which is what the wrapper does for the non-empty,
positive-limit arguments arising at these call sites; lemma
`splitParagraphByWords_eq_go` below). -/
def chunkTextGo (limit : Nat) : List (List Char) → List Char → List (List Char)
  | [], acc => if acc.length > 0 then [acc] else []
  | p :: ps, acc =>
    if isBlank p then
      if acc.length > 0 then
        if acc.length + 1 ≤ limit then chunkTextGo limit ps (acc ++ ['\n'])
        else acc :: chunkTextGo limit ps []
      else chunkTextGo limit ps acc
    else
      if acc.length = 0 then
        if p.length ≤ limit then chunkTextGo limit ps p
        else splitParagraphByWordsGo limit (splitOnChar ' ' p) [] ++
          chunkTextGo limit ps []
      else
        if acc.length + 1 + p.length ≤ limit then
          chunkTextGo limit ps (acc ++ '\n' :: p)
        else
          acc ::
            (if p.length ≤ limit then chunkTextGo limit ps p
             else splitParagraphByWordsGo limit (splitOnChar ' ' p) [] ++
               chunkTextGo limit ps [])

/-- Models source `chunkText(text, maxCharLength)` (lines 227-283): chunk
text by paragraphs, then by words if paragraphs are too long, finally
dropping chunks that are empty or whitespace-only
(`.filter((chunk) => chunk.trim() !== "")`). -/
def chunkText (text : List Char) (maxCharLength : Int) : List (List Char) :=
  if text = [] ∨ maxCharLength ≤ 0 then []
  else
    (chunkTextGo maxCharLength.toNat (splitOnChar '\n' text) []).filter
      (fun chunk => !isBlank chunk)

/-- Joins pieces back with the separator between consecutive pieces
(left inverse of `splitOnChar`). -/
def rejoin (sep : Char) : List (List Char) → List Char
  | [] => []
  | [p] => p
  | p :: ps => p ++ sep :: rejoin sep ps

/-- The continuation of a paragraph list: each remaining paragraph with its
leading separator. -/
def tailJoin (sep : Char) (ps : List (List Char)) : List Char :=
  (ps.map (fun p => sep :: p)).flatten

theorem rejoin_cons (sep : Char) (p : List Char) (ps : List (List Char)) :
    rejoin sep (p :: ps) = p ++ tailJoin sep ps := by
  induction ps generalizing p with
  | nil => simp [rejoin, tailJoin]
  | cons q qs ih => simp [rejoin, tailJoin, ih q, List.append_assoc]

theorem splitOnChar_ne_nil (sep : Char) (s : List Char) :
    splitOnChar sep s ≠ [] := by
  cases s with
  | nil => simp [splitOnChar]
  | cons c cs =>
    simp only [splitOnChar]
    split <;> simp

theorem sep_not_mem_of_mem_splitOnChar {sep : Char} {s p : List Char}
    (hp : p ∈ splitOnChar sep s) : sep ∉ p := by
  induction s generalizing p with
  | nil =>
    simp only [splitOnChar, List.mem_singleton] at hp
    subst hp; simp
  | cons c cs ih =>
    simp only [splitOnChar] at hp
    by_cases hc : c = sep
    · simp only [if_pos hc, List.mem_cons] at hp
      rcases hp with h | h
      · subst h; simp
      · exact ih h
    · obtain ⟨q, qs, hr⟩ := List.exists_cons_of_ne_nil (splitOnChar_ne_nil sep cs)
      rw [if_neg hc, hr] at hp
      simp only [List.headI, List.tail_cons, List.mem_cons] at hp
      rcases hp with h | h
      · subst h
        intro hmem
        rcases List.mem_cons.mp hmem with h' | h'
        · exact hc h'.symm
        · exact ih (hr ▸ List.mem_cons_self q qs) h'
      · exact ih (hr ▸ List.mem_cons_of_mem q h)

theorem rejoin_splitOnChar (sep : Char) (s : List Char) :
    rejoin sep (splitOnChar sep s) = s := by
  induction s with
  | nil => simp [splitOnChar, rejoin]
  | cons c cs ih =>
    simp only [splitOnChar]
    by_cases hc : c = sep
    · obtain ⟨q, qs, hr⟩ := List.exists_cons_of_ne_nil (splitOnChar_ne_nil sep cs)
      rw [if_pos hc, hr]
      rw [hr] at ih
      simp [rejoin, ih, hc]
    · obtain ⟨q, qs, hr⟩ := List.exists_cons_of_ne_nil (splitOnChar_ne_nil sep cs)
      rw [if_neg hc, hr]
      rw [hr] at ih
      cases qs with
      | nil => simpa [rejoin] using congrArg (c :: ·) ih
      | cons q2 qs2 =>
        simp only [rejoin, List.headI, List.tail_cons] at ih ⊢
        rw [List.cons_append, ih]

theorem splitOnChar_append_cons {sep : Char} {a : List Char}
    (t : List Char) (ha : sep ∉ a) :
    splitOnChar sep (a ++ sep :: t) = a :: splitOnChar sep t := by
  induction a with
  | nil => simp [splitOnChar]
  | cons c a' ih =>
    have hc : ¬ c = sep := fun h => ha (h ▸ List.mem_cons_self c a')
    have ha' : sep ∉ a' := fun h => ha (List.mem_cons_of_mem c h)
    simp only [List.cons_append, splitOnChar, if_neg hc, List.append_eq]
    rw [ih ha']
    simp [List.headI]

theorem splitOnChar_of_not_mem {sep : Char} {s : List Char} (hs : sep ∉ s) :
    splitOnChar sep s = [s] := by
  induction s with
  | nil => simp [splitOnChar]
  | cons c cs ih =>
    have hc : ¬ c = sep := fun h => hs (h ▸ List.mem_cons_self c cs)
    have hcs : sep ∉ cs := fun h => hs (List.mem_cons_of_mem c h)
    simp [splitOnChar, ih hcs, if_neg hc, List.headI]

theorem nonWS_append (a b : List Char) : nonWS (a ++ b) = nonWS a ++ nonWS b := by
  simp [nonWS, List.filter_append]

theorem nonWS_cons_ws {c : Char} (hc : c.isWhitespace = true) (l : List Char) :
    nonWS (c :: l) = nonWS l := by
  simp [nonWS, List.filter_cons, hc]

theorem nonWS_eq_nil_of_isBlank {s : List Char} (hs : isBlank s = true) :
    nonWS s = [] := by
  simp only [isBlank, List.all_eq_true] at hs
  simp only [nonWS, List.filter_eq_nil_iff]
  intro c hc
  simp [hs c hc]

theorem isBlank_append (a b : List Char) :
    isBlank (a ++ b) = (isBlank a && isBlank b) := by
  simp [isBlank, List.all_append]

theorem nonWS_rejoin {sep : Char} (hsep : sep.isWhitespace = true)
    (xs : List (List Char)) : nonWS (rejoin sep xs) = nonWS xs.flatten := by
  induction xs with
  | nil => simp [rejoin]
  | cons p ps ih =>
    cases ps with
    | nil => simp [rejoin]
    | cons q qs =>
      simp only [rejoin, List.flatten_cons] at ih ⊢
      simp only [nonWS_append, nonWS_cons_ws hsep, ih]

theorem nonWS_join_splitOnChar {sep : Char} (hsep : sep.isWhitespace = true)
    (s : List Char) : nonWS (splitOnChar sep s).flatten = nonWS s := by
  conv_rhs => rw [← rejoin_splitOnChar sep s]
  rw [nonWS_rejoin hsep]

theorem splitLongWordGo_flatten (L : Nat) (cur : List Char) :
    (splitLongWordGo L cur).flatten = cur := by
  induction cur using splitLongWordGo.induct L with
  | case1 cur h ih =>
    rw [splitLongWordGo]
    simp [dif_pos h, ih]
  | case2 cur h h2 =>
    rw [splitLongWordGo]
    simp [dif_neg h]
    simp_all
  | case3 cur h h2 =>
    rw [splitLongWordGo]
    simp [dif_neg h]
    simp_all

theorem splitLongWordGo_mem (L : Nat) (cur : List Char) :
    0 < L → ∀ c ∈ splitLongWordGo L cur, c ≠ [] ∧ c.length ≤ L ∧ c ⊆ cur := by
  induction cur using splitLongWordGo.induct L with
  | case1 cur h ih =>
    intro hL c hc
    rw [splitLongWordGo, dif_pos h] at hc
    rcases List.mem_cons.mp hc with h1 | h1
    · subst h1
      refine ⟨?_, ?_, List.take_subset L cur⟩
      · intro hnil
        have hlen := congrArg List.length hnil
        rw [List.length_take] at hlen
        simp only [List.length_nil] at hlen
        omega
      · simp [List.length_take]
    · obtain ⟨hne, hlen, hsub⟩ := ih hL c h1
      exact ⟨hne, hlen, hsub.trans (List.drop_subset L cur)⟩
  | case2 cur h h2 =>
    intro hL c hc
    rw [splitLongWordGo, dif_neg h] at hc
    simp only [h2, if_pos, List.mem_singleton] at hc
    subst hc
    refine ⟨?_, ?_, fun x hx => hx⟩
    · intro hnil; subst hnil; simp at h2
    · have h3 : ¬ L < c.length := fun hlt => h ⟨hL, hlt⟩
      omega
  | case3 cur h h2 =>
    intro hL c hc
    rw [splitLongWordGo, dif_neg h, if_neg h2] at hc
    simp at hc

theorem splitLongWordGo_struct (L : Nat) (cur : List Char) :
    0 < L → cur ≠ [] →
    ∃ pieces lastPiece, splitLongWordGo L cur = pieces ++ [lastPiece] ∧
      (∀ c ∈ pieces, c.length = L) ∧
      0 < lastPiece.length ∧ lastPiece.length ≤ L := by
  induction cur using splitLongWordGo.induct L with
  | case1 cur h ih =>
    intro hL _
    have hdrop : List.drop L cur ≠ [] := by
      intro hnil
      have := congrArg List.length hnil
      simp [List.length_drop] at this
      omega
    obtain ⟨pieces, lastPiece, heq, hinit, hpos, hle⟩ := ih hL hdrop
    refine ⟨List.take L cur :: pieces, lastPiece, ?_, ?_, hpos, hle⟩
    · rw [splitLongWordGo, dif_pos h, heq]
      simp
    · intro c hc
      rcases List.mem_cons.mp hc with h1 | h1
      · subst h1; simp [List.length_take]; omega
      · exact hinit c h1
  | case2 cur h h2 =>
    intro hL _
    have h3 : ¬ L < cur.length := fun hlt => h ⟨hL, hlt⟩
    refine ⟨[], cur, ?_, by simp, by omega, by omega⟩
    rw [splitLongWordGo, dif_neg h, if_pos h2]
    simp
  | case3 cur h h2 =>
    intro _ hne
    exact absurd (by omega : cur.length = 0) (by simpa using hne)

theorem splitLongWord_eq_go (w : List Char) (m : Int) (hw : w ≠ [])
    (hm : 0 < m) : splitLongWord w m = splitLongWordGo m.toNat w := by
  rw [splitLongWord, if_neg]
  push_neg
  exact ⟨hw, by omega⟩

theorem splitParagraphByWords_eq_go (p : List Char) (m : Int) (hp : p ≠ [])
    (hm : 0 < m) : splitParagraphByWords p m =
      splitParagraphByWordsGo m.toNat (splitOnChar ' ' p) [] := by
  rw [splitParagraphByWords, if_neg]
  push_neg
  exact ⟨hp, by omega⟩

theorem spw_nil_eq (L : Nat) (acc : List Char) :
    splitParagraphByWordsGo L [] acc = if acc.length > 0 then [acc] else [] :=
  rfl

theorem spw_skip_eq (L : Nat) {w : List Char} (ws : List (List Char))
    (acc : List Char) (hw : w.length = 0) :
    splitParagraphByWordsGo L (w :: ws) acc = splitParagraphByWordsGo L ws acc := by
  simp only [splitParagraphByWordsGo, if_pos hw]

theorem spw_long_eq (L : Nat) {w : List Char} (ws : List (List Char))
    (acc : List Char) (hw : ¬ w.length = 0) (hlong : L < w.length) :
    splitParagraphByWordsGo L (w :: ws) acc =
      (if acc.length > 0 then [acc] else []) ++ splitLongWordGo L w ++
        splitParagraphByWordsGo L ws [] := by
  simp only [splitParagraphByWordsGo, if_neg hw, if_pos hlong]

theorem spw_first_eq (L : Nat) {w : List Char} (ws : List (List Char))
    (hw : ¬ w.length = 0) (hlong : ¬ L < w.length) :
    splitParagraphByWordsGo L (w :: ws) [] = splitParagraphByWordsGo L ws w := by
  simp only [splitParagraphByWordsGo, if_neg hw, if_neg hlong]
  rw [if_pos (by simp; omega)]
  simp

theorem spw_fit_eq (L : Nat) {w acc : List Char} (ws : List (List Char))
    (hw : ¬ w.length = 0) (hlong : ¬ L < w.length) (hacc : acc ≠ [])
    (hfit : acc.length + 1 + w.length ≤ L) :
    splitParagraphByWordsGo L (w :: ws) acc =
      splitParagraphByWordsGo L ws (acc ++ ' ' :: w) := by
  have hpos : acc.length > 0 := List.length_pos.mpr hacc
  simp only [splitParagraphByWordsGo, if_neg hw, if_neg hlong, if_pos hpos]
  rw [if_pos (by simpa using hfit)]
  simp

theorem spw_flush_eq (L : Nat) {w acc : List Char} (ws : List (List Char))
    (hw : ¬ w.length = 0) (hlong : ¬ L < w.length) (hacc : acc ≠ [])
    (hfit : ¬ acc.length + 1 + w.length ≤ L) :
    splitParagraphByWordsGo L (w :: ws) acc =
      acc :: splitParagraphByWordsGo L ws w := by
  have hpos : acc.length > 0 := List.length_pos.mpr hacc
  simp only [splitParagraphByWordsGo, if_neg hw, if_neg hlong, if_pos hpos]
  rw [if_neg (by simpa using hfit)]
  simp

theorem ct_nil_eq (L : Nat) (acc : List Char) :
    chunkTextGo L [] acc = if acc.length > 0 then [acc] else [] :=
  rfl

theorem ct_blank_first_eq (L : Nat) {p : List Char} (ps : List (List Char))
    (hp : isBlank p = true) :
    chunkTextGo L (p :: ps) [] = chunkTextGo L ps [] := by
  simp only [chunkTextGo, hp, if_pos]
  simp

theorem ct_blank_fit_eq (L : Nat) {p acc : List Char} (ps : List (List Char))
    (hp : isBlank p = true) (hacc : acc ≠ []) (hfit : acc.length + 1 ≤ L) :
    chunkTextGo L (p :: ps) acc = chunkTextGo L ps (acc ++ ['\n']) := by
  have hpos : acc.length > 0 := List.length_pos.mpr hacc
  simp only [chunkTextGo, hp, if_pos, if_pos hpos, if_pos hfit]

theorem ct_blank_flush_eq (L : Nat) {p acc : List Char} (ps : List (List Char))
    (hp : isBlank p = true) (hacc : acc ≠ []) (hfit : ¬ acc.length + 1 ≤ L) :
    chunkTextGo L (p :: ps) acc = acc :: chunkTextGo L ps [] := by
  have hpos : acc.length > 0 := List.length_pos.mpr hacc
  simp only [chunkTextGo, hp, if_pos, if_pos hpos, if_neg hfit]

theorem ct_para_first_eq (L : Nat) {p : List Char} (ps : List (List Char))
    (hp : ¬ isBlank p = true) (hfit : p.length ≤ L) :
    chunkTextGo L (p :: ps) [] = chunkTextGo L ps p := by
  simp only [chunkTextGo, if_neg hp]
  rw [if_pos (by simp), if_pos hfit]

theorem ct_para_first_long_eq (L : Nat) {p : List Char} (ps : List (List Char))
    (hp : ¬ isBlank p = true) (hfit : ¬ p.length ≤ L) :
    chunkTextGo L (p :: ps) [] =
      splitParagraphByWordsGo L (splitOnChar ' ' p) [] ++ chunkTextGo L ps [] := by
  simp only [chunkTextGo, if_neg hp]
  rw [if_pos (by simp), if_neg hfit]

theorem ct_para_fit_eq (L : Nat) {p acc : List Char} (ps : List (List Char))
    (hp : ¬ isBlank p = true) (hacc : acc ≠ [])
    (hfit : acc.length + 1 + p.length ≤ L) :
    chunkTextGo L (p :: ps) acc = chunkTextGo L ps (acc ++ '\n' :: p) := by
  have hpos : ¬ acc.length = 0 := fun h0 => hacc (List.length_eq_zero.mp h0)
  simp only [chunkTextGo, if_neg hp, if_neg hpos, if_pos hfit]

theorem ct_para_flush_eq (L : Nat) {p acc : List Char} (ps : List (List Char))
    (hp : ¬ isBlank p = true) (hacc : acc ≠ [])
    (hbig : ¬ acc.length + 1 + p.length ≤ L) (hfit : p.length ≤ L) :
    chunkTextGo L (p :: ps) acc = acc :: chunkTextGo L ps p := by
  have hpos : ¬ acc.length = 0 := fun h0 => hacc (List.length_eq_zero.mp h0)
  simp only [chunkTextGo, if_neg hp, if_neg hpos, if_neg hbig, if_pos hfit]

theorem ct_para_flush_long_eq (L : Nat) {p acc : List Char} (ps : List (List Char))
    (hp : ¬ isBlank p = true) (hacc : acc ≠ [])
    (hbig : ¬ acc.length + 1 + p.length ≤ L) (hfit : ¬ p.length ≤ L) :
    chunkTextGo L (p :: ps) acc =
      acc :: (splitParagraphByWordsGo L (splitOnChar ' ' p) [] ++
        chunkTextGo L ps []) := by
  have hpos : ¬ acc.length = 0 := fun h0 => hacc (List.length_eq_zero.mp h0)
  simp only [chunkTextGo, if_neg hp, if_neg hpos, if_neg hbig, if_neg hfit]

theorem flush_flatten (acc : List Char) :
    (if acc.length > 0 then [acc] else [] : List (List Char)).flatten = acc := by
  split
  · simp
  · rename_i hpos
    have : acc = [] := List.length_eq_zero.mp (by omega)
    simp [this]

theorem mem_flush {acc c : List Char}
    (hc : c ∈ (if acc.length > 0 then [acc] else [] : List (List Char))) :
    c = acc := by
  split at hc
  · simpa using hc
  · simp at hc

theorem spwGo_length_le (L : Nat) (ws : List (List Char)) :
    ∀ acc : List Char, 0 < L → acc.length ≤ L →
      ∀ c ∈ splitParagraphByWordsGo L ws acc, c.length ≤ L := by
  induction ws with
  | nil =>
    intro acc _ hacc c hc
    rw [spw_nil_eq] at hc
    exact (mem_flush hc) ▸ hacc
  | cons w ws ih =>
    intro acc hL hacc c hc
    by_cases hw : w.length = 0
    · rw [spw_skip_eq L ws acc hw] at hc
      exact ih acc hL hacc c hc
    · by_cases hlong : L < w.length
      · rw [spw_long_eq L ws acc hw hlong] at hc
        simp only [List.mem_append] at hc
        rcases hc with (hc | hc) | hc
        · exact (mem_flush hc) ▸ hacc
        · exact (splitLongWordGo_mem L w hL c hc).2.1
        · exact ih [] hL (by simp) c hc
      · rcases eq_or_ne acc [] with rfl | hne
        · rw [spw_first_eq L ws hw hlong] at hc
          exact ih w hL (by omega) c hc
        · by_cases hfit : acc.length + 1 + w.length ≤ L
          · rw [spw_fit_eq L ws hw hlong hne hfit] at hc
            refine ih _ hL ?_ c hc
            simp only [List.length_append, List.length_cons]
            omega
          · rw [spw_flush_eq L ws hw hlong hne hfit] at hc
            rcases List.mem_cons.mp hc with rfl | hc
            · exact hacc
            · exact ih w hL (by omega) c hc

theorem spwGo_nonWS (L : Nat) (ws : List (List Char)) :
    ∀ acc : List Char,
      nonWS (splitParagraphByWordsGo L ws acc).flatten =
        nonWS acc ++ nonWS ws.flatten := by
  induction ws with
  | nil =>
    intro acc
    rw [spw_nil_eq, flush_flatten]
    simp [nonWS]
  | cons w ws ih =>
    intro acc
    by_cases hw : w.length = 0
    · have hwnil : w = [] := List.length_eq_zero.mp hw
      rw [spw_skip_eq L ws acc hw, ih acc, hwnil]
      simp
    · by_cases hlong : L < w.length
      · rw [spw_long_eq L ws acc hw hlong]
        simp only [List.flatten_append, nonWS_append, splitLongWordGo_flatten,
          flush_flatten, ih [], List.flatten_cons]
        simp [nonWS, List.append_assoc]
      · rcases eq_or_ne acc [] with rfl | hne
        · rw [spw_first_eq L ws hw hlong, ih w]
          simp [nonWS_append, nonWS]
        · by_cases hfit : acc.length + 1 + w.length ≤ L
          · rw [spw_fit_eq L ws hw hlong hne hfit, ih _]
            rw [nonWS_append, nonWS_cons_ws (by decide)]
            simp [nonWS_append, List.append_assoc]
            try simp [nonWS]
          · rw [spw_flush_eq L ws hw hlong hne hfit]
            simp only [List.flatten_cons, nonWS_append, ih w]

theorem nonWS_nil : nonWS [] = [] := rfl

theorem nonWS_newline : nonWS ['\n'] = [] := rfl

theorem tailJoin_cons (sep : Char) (p : List Char) (ps : List (List Char)) :
    tailJoin sep (p :: ps) = sep :: (p ++ tailJoin sep ps) := by
  simp [tailJoin]

theorem ctGo_length_le (L : Nat) (ps : List (List Char)) :
    ∀ acc : List Char, 0 < L → acc.length ≤ L →
      ∀ c ∈ chunkTextGo L ps acc, c.length ≤ L := by
  induction ps with
  | nil =>
    intro acc _ hacc c hc
    rw [ct_nil_eq] at hc
    exact (mem_flush hc) ▸ hacc
  | cons p ps ih =>
    intro acc hL hacc c hc
    by_cases hp : isBlank p = true
    · rcases eq_or_ne acc [] with rfl | hne
      · rw [ct_blank_first_eq L ps hp] at hc
        exact ih [] hL (by simp) c hc
      · by_cases hfit : acc.length + 1 ≤ L
        · rw [ct_blank_fit_eq L ps hp hne hfit] at hc
          refine ih _ hL ?_ c hc
          simp only [List.length_append, List.length_cons, List.length_nil]
          omega
        · rw [ct_blank_flush_eq L ps hp hne hfit] at hc
          rcases List.mem_cons.mp hc with rfl | hc
          · exact hacc
          · exact ih [] hL (by simp) c hc
    · rcases eq_or_ne acc [] with rfl | hne
      · by_cases hpl : p.length ≤ L
        · rw [ct_para_first_eq L ps hp hpl] at hc
          exact ih p hL hpl c hc
        · rw [ct_para_first_long_eq L ps hp hpl] at hc
          rcases List.mem_append.mp hc with hc | hc
          · exact spwGo_length_le L _ [] hL (by simp) c hc
          · exact ih [] hL (by simp) c hc
      · by_cases hfit : acc.length + 1 + p.length ≤ L
        · rw [ct_para_fit_eq L ps hp hne hfit] at hc
          refine ih _ hL ?_ c hc
          simp only [List.length_append, List.length_cons]
          omega
        · by_cases hpl : p.length ≤ L
          · rw [ct_para_flush_eq L ps hp hne hfit hpl] at hc
            rcases List.mem_cons.mp hc with rfl | hc
            · exact hacc
            · exact ih p hL hpl c hc
          · rw [ct_para_flush_long_eq L ps hp hne hfit hpl] at hc
            rcases List.mem_cons.mp hc with rfl | hc
            · exact hacc
            · rcases List.mem_append.mp hc with hc | hc
              · exact spwGo_length_le L _ [] hL (by simp) c hc
              · exact ih [] hL (by simp) c hc

theorem ctGo_nonWS (L : Nat) (ps : List (List Char)) :
    ∀ acc : List Char,
      nonWS (chunkTextGo L ps acc).flatten = nonWS acc ++ nonWS ps.flatten := by
  induction ps with
  | nil =>
    intro acc
    rw [ct_nil_eq, flush_flatten]
    simp [nonWS]
  | cons p ps ih =>
    intro acc
    have hsp : nonWS (splitParagraphByWordsGo L (splitOnChar ' ' p) []).flatten =
        nonWS p := by
      rw [spwGo_nonWS L _ [], nonWS_nil, List.nil_append,
        nonWS_join_splitOnChar (by decide)]
    by_cases hp : isBlank p = true
    · have hpn : nonWS p = [] := nonWS_eq_nil_of_isBlank hp
      rcases eq_or_ne acc [] with rfl | hne
      · rw [ct_blank_first_eq L ps hp, ih []]
        simp [nonWS_append, hpn, nonWS_nil]
      · by_cases hfit : acc.length + 1 ≤ L
        · rw [ct_blank_fit_eq L ps hp hne hfit, ih _]
          simp [nonWS_append, nonWS_newline, hpn]
        · rw [ct_blank_flush_eq L ps hp hne hfit]
          simp only [List.flatten_cons, nonWS_append, ih [], nonWS_nil]
          simp [nonWS_append, hpn]
    · rcases eq_or_ne acc [] with rfl | hne
      · by_cases hpl : p.length ≤ L
        · rw [ct_para_first_eq L ps hp hpl, ih p]
          simp [nonWS_append, nonWS_nil]
        · rw [ct_para_first_long_eq L ps hp hpl]
          simp only [List.flatten_append, nonWS_append, hsp, ih [], nonWS_nil]
          simp [nonWS_append, List.append_assoc]
      · by_cases hfit : acc.length + 1 + p.length ≤ L
        · rw [ct_para_fit_eq L ps hp hne hfit, ih _]
          rw [nonWS_append]
          simp [nonWS_append, nonWS_cons_ws (by decide : ('\n').isWhitespace = true),
            List.append_assoc]
        · by_cases hpl : p.length ≤ L
          · rw [ct_para_flush_eq L ps hp hne hfit hpl]
            simp only [List.flatten_cons, nonWS_append, ih p]
          · rw [ct_para_flush_long_eq L ps hp hne hfit hpl]
            simp only [List.flatten_cons, List.flatten_append, nonWS_append,
              hsp, ih [], nonWS_nil]
            simp [nonWS_append, List.append_assoc]

theorem ctGo_flush (L : Nat) (ps : List (List Char)) :
    ∀ acc : List Char, acc ≠ [] →
      (∀ p ∈ ps, isBlank p = true → p = []) →
      acc.length + (tailJoin '\n' ps).length ≤ L →
      chunkTextGo L ps acc = [acc ++ tailJoin '\n' ps] := by
  induction ps with
  | nil =>
    intro acc hne _ _
    rw [ct_nil_eq, if_pos (List.length_pos.mpr hne)]
    simp [tailJoin]
  | cons p ps ih =>
    intro acc hne hbl hlen
    rw [tailJoin_cons] at hlen
    simp only [List.length_cons, List.length_append] at hlen
    by_cases hp : isBlank p = true
    · have hpnil : p = [] := hbl p (List.mem_cons_self p ps) hp
      subst hpnil
      have hfit : acc.length + 1 ≤ L := by omega
      rw [ct_blank_fit_eq L ps hp hne hfit]
      rw [ih (acc ++ ['\n']) (by simp)
        (fun q hq hqb => hbl q (List.mem_cons_of_mem _ hq) hqb)
        (by simp only [List.length_append, List.length_cons, List.length_nil]; omega)]
      rw [tailJoin_cons]
      simp [List.append_assoc]
    · have hfit : acc.length + 1 + p.length ≤ L := by omega
      rw [ct_para_fit_eq L ps hp hne hfit]
      rw [ih (acc ++ '\n' :: p) (by simp)
        (fun q hq hqb => hbl q (List.mem_cons_of_mem _ hq) hqb)
        (by simp only [List.length_append, List.length_cons]; omega)]
      rw [tailJoin_cons]
      simp [List.append_assoc]

/-- True iff the string has no two adjacent space characters. -/
def noDoubleSpace : List Char → Bool
  | a :: b :: rest => !(a = ' ' && b = ' ') && noDoubleSpace (b :: rest)
  | _ => true

/-- A chunk is space-normalised: non-empty, no leading space, no trailing
space, and no two adjacent spaces. -/
def spaceNormalized (c : List Char) : Prop :=
  c ≠ [] ∧ c.head? ≠ some ' ' ∧ c.getLast? ≠ some ' ' ∧ noDoubleSpace c = true

theorem noDoubleSpace_of_not_mem : ∀ {w : List Char}, ' ' ∉ w →
    noDoubleSpace w = true := by
  intro w
  induction w with
  | nil => intro _; rfl
  | cons a w ih =>
    intro hw
    cases w with
    | nil => rfl
    | cons b rest =>
      have ha : ¬ a = ' ' := fun h => hw (h ▸ List.mem_cons_self a _)
      have hw' : ' ' ∉ b :: rest := fun h => hw (List.mem_cons_of_mem a h)
      simp only [noDoubleSpace, Bool.and_eq_true, Bool.not_eq_true']
      refine ⟨?_, ih hw'⟩
      simp [ha]

theorem noDoubleSpace_space_cons {w : List Char} (hw : ' ' ∉ w) (hne : w ≠ []) :
    noDoubleSpace (' ' :: w) = true := by
  cases w with
  | nil => simp at hne
  | cons x xs =>
    have hx : ¬ x = ' ' := fun h => hw (h ▸ List.mem_cons_self x xs)
    simp only [noDoubleSpace, Bool.and_eq_true, Bool.not_eq_true']
    exact ⟨by simp [hx], noDoubleSpace_of_not_mem hw⟩

theorem noDoubleSpace_append : ∀ {acc : List Char}, noDoubleSpace acc = true →
    acc.getLast? ≠ some ' ' → ∀ {w : List Char}, ' ' ∉ w → w ≠ [] →
    noDoubleSpace (acc ++ ' ' :: w) = true := by
  intro acc
  induction acc with
  | nil =>
    intro _ _ w hw hne
    exact noDoubleSpace_space_cons hw hne
  | cons a acc ih =>
    intro hnds hlast w hw hne
    cases acc with
    | nil =>
      have ha : ¬ a = ' ' := by
        intro h
        exact hlast (by simp [h, List.getLast?])
      simp only [List.cons_append, List.nil_append]
      simp only [noDoubleSpace, Bool.and_eq_true, Bool.not_eq_true']
      exact ⟨by simp [ha], noDoubleSpace_space_cons hw hne⟩
    | cons b rest =>
      simp only [noDoubleSpace, Bool.and_eq_true] at hnds
      have hlast' : (b :: rest).getLast? ≠ some ' ' := by
        intro h
        exact hlast (by rw [List.getLast?_cons_cons]; exact h)
      simp only [List.cons_append, noDoubleSpace, Bool.and_eq_true]
      exact ⟨hnds.1, ih hnds.2 hlast' hw hne⟩

theorem head?_ne_space_of_not_mem {w : List Char} (hw : ' ' ∉ w) :
    w.head? ≠ some ' ' := by
  cases w with
  | nil => simp
  | cons x xs =>
    simp only [List.head?_cons, ne_eq, Option.some.injEq]
    exact fun h => hw (h ▸ List.mem_cons_self x xs)

theorem getLast?_ne_space_of_not_mem {w : List Char} (hw : ' ' ∉ w) :
    w.getLast? ≠ some ' ' := by
  intro h
  have hmem : ' ' ∈ w.getLast? := by simp [Option.mem_def, h]
  obtain ⟨hne, heq⟩ := List.mem_getLast?_eq_getLast hmem
  exact hw (heq ▸ List.getLast_mem hne)

theorem spaceNormalized_of_not_mem {w : List Char} (hw : ' ' ∉ w) (hne : w ≠ []) :
    spaceNormalized w :=
  ⟨hne, head?_ne_space_of_not_mem hw, getLast?_ne_space_of_not_mem hw,
    noDoubleSpace_of_not_mem hw⟩

theorem spaceNormalized_append {acc w : List Char} (hacc : spaceNormalized acc)
    (hw : ' ' ∉ w) (hne : w ≠ []) : spaceNormalized (acc ++ ' ' :: w) := by
  obtain ⟨hane, hhead, hlast, hnds⟩ := hacc
  refine ⟨by simp, ?_, ?_, noDoubleSpace_append hnds hlast hw hne⟩
  · rw [List.head?_append_of_ne_nil _ hane]
    exact hhead
  · rw [List.getLast?_append_cons]
    have hsplit : (' ' :: w) = [' '] ++ w := rfl
    rw [hsplit, List.getLast?_append_of_ne_nil _ hne]
    exact getLast?_ne_space_of_not_mem hw

theorem spwGo_spaceNormalized (L : Nat) (ws : List (List Char)) :
    ∀ acc : List Char, 0 < L → (∀ w ∈ ws, ' ' ∉ w) →
      (acc = [] ∨ spaceNormalized acc) →
      ∀ c ∈ splitParagraphByWordsGo L ws acc, spaceNormalized c := by
  induction ws with
  | nil =>
    intro acc _ _ hacc c hc
    rw [spw_nil_eq] at hc
    split at hc
    · rename_i hpos
      rw [List.mem_singleton] at hc
      subst hc
      rcases hacc with rfl | h
      · simp at hpos
      · exact h
    · simp at hc
  | cons w ws ih =>
    intro acc hL hws hacc c hc
    have hwmem : ' ' ∉ w := hws w (List.mem_cons_self w ws)
    have hws' : ∀ v ∈ ws, ' ' ∉ v := fun v hv => hws v (List.mem_cons_of_mem w hv)
    by_cases hw : w.length = 0
    · rw [spw_skip_eq L ws acc hw] at hc
      exact ih acc hL hws' hacc c hc
    · have hwne : w ≠ [] := fun h => hw (by simp [h])
      by_cases hlong : L < w.length
      · rw [spw_long_eq L ws acc hw hlong] at hc
        simp only [List.mem_append] at hc
        rcases hc with (hc | hc) | hc
        · split at hc
          · rename_i hpos
            rw [List.mem_singleton] at hc
            subst hc
            rcases hacc with rfl | h
            · simp at hpos
            · exact h
          · simp at hc
        · obtain ⟨hcne, _, hsub⟩ := splitLongWordGo_mem L w hL c hc
          exact spaceNormalized_of_not_mem (fun hm => hwmem (hsub hm)) hcne
        · exact ih [] hL hws' (Or.inl rfl) c hc
      · rcases eq_or_ne acc [] with rfl | hne
        · rw [spw_first_eq L ws hw hlong] at hc
          exact ih w hL hws' (Or.inr (spaceNormalized_of_not_mem hwmem hwne)) c hc
        · have haccN : spaceNormalized acc := by
            rcases hacc with rfl | h
            · exact absurd rfl hne
            · exact h
          by_cases hfit : acc.length + 1 + w.length ≤ L
          · rw [spw_fit_eq L ws hw hlong hne hfit] at hc
            exact ih _ hL hws'
              (Or.inr (spaceNormalized_append haccN hwmem hwne)) c hc
          · rw [spw_flush_eq L ws hw hlong hne hfit] at hc
            rcases List.mem_cons.mp hc with rfl | hc
            · exact haccN
            · exact ih w hL hws'
                (Or.inr (spaceNormalized_of_not_mem hwmem hwne)) c hc

theorem nonWS_flatten_filter (l : List (List Char)) :
    nonWS ((l.filter (fun c => !isBlank c)).flatten) = nonWS l.flatten := by
  induction l with
  | nil => rfl
  | cons c l ih =>
    by_cases hc : isBlank c = true
    · rw [List.filter_cons_of_neg (by simp [hc])]
      rw [ih]
      simp [List.flatten_cons, nonWS_append, nonWS_eq_nil_of_isBlank hc]
    · rw [List.filter_cons_of_pos (by simp [hc])]
      simp [List.flatten_cons, nonWS_append, ih]

/-- C1: for every limit > 0, every chunk produced by `chunkText` has length
at most `limit`; chunks of every origin, including the trailing piece of a
force-split word, never exceed the limit. -/
theorem chunkText_length_le (text : List Char) (limit : Int) (c : List Char)
    (hL : 0 < limit) (hc : c ∈ chunkText text limit) :
    (c.length : Int) ≤ limit := by
  rw [chunkText] at hc
  split at hc
  · simp at hc
  · have hmem := (List.mem_filter.mp hc).1
    have hlen := ctGo_length_le limit.toNat _ [] (by omega) (by simp) c hmem
    omega

/-- Witness for C1 at `text = "hello world"`, `limit = 20`. -/
theorem chunkText_length_le_witness :
    "hello world".toList ∈ chunkText "hello world".toList 20 ∧
      (("hello world".toList.length : Int) ≤ 20) :=
  ⟨by decide, chunkText_length_le "hello world".toList 20 "hello world".toList
    (by decide) (by decide)⟩

/-- C2: `splitLongWord` on a non-empty word longer than a positive limit
returns pieces whose concatenation is the word, every piece of length
exactly `limit` except the last, whose length lies in `[1, limit]` (and no
error is possible: the function is total). -/
theorem splitLongWord_spec (w : List Char) (limit : Int) (hw : w ≠ [])
    (hpos : 0 < limit) (hlong : limit < (w.length : Int)) :
    (splitLongWord w limit).flatten = w ∧
    (∀ c ∈ (splitLongWord w limit).dropLast, (c.length : Int) = limit) ∧
    ∃ lastPiece, (splitLongWord w limit).getLast? = some lastPiece ∧
      0 < lastPiece.length ∧ (lastPiece.length : Int) ≤ limit := by
  rw [splitLongWord_eq_go w limit hw hpos]
  obtain ⟨pieces, lastPiece, heq, hinit, hp1, hp2⟩ :=
    splitLongWordGo_struct limit.toNat w (by omega) hw
  refine ⟨splitLongWordGo_flatten limit.toNat w, ?_, lastPiece, ?_, hp1, by omega⟩
  · intro c hc
    rw [heq, List.dropLast_concat] at hc
    have := hinit c hc
    omega
  · rw [heq, List.getLast?_concat]

/-- Witness for C2 at `w = "abcde"`, `limit = 2`. -/
theorem splitLongWord_spec_witness :
    (splitLongWord "abcde".toList 2).flatten = "abcde".toList :=
  (splitLongWord_spec "abcde".toList 2 (by decide) (by decide) (by decide)).1

/-- C3 counterexample: `chunkText "a\n\n\nb" 10` is `["a\n\n\nb"]`: the two
consecutive blank lines are preserved (three newlines in the chunk), not
collapsed to a single blank-line separator `"a\n\nb"`. -/
theorem chunkText_blank_collapse_cex :
    chunkText "a\n\n\nb".toList 10 = ["a\n\n\nb".toList] ∧
      chunkText "a\n\n\nb".toList 10 ≠ ["a\n\nb".toList] ∧
      ¬ ("a\n\n\nb".toList.count '\n' ≤ 2) :=
  ⟨by decide, by decide, by decide⟩

/-- C3 (amended): blank lines are never emitted as chunks of their own
(every returned chunk is non-blank), but consecutive blank lines are
preserved rather than collapsed: each blank line that fits appends one
newline to the accumulator, so for non-blank newline-free `a`, `b` with
`|a| + 3 + |b| ≤ limit`, `chunkText (a ++ "\n\n\n" ++ b) limit` is the
single chunk `a ++ "\n\n\n" ++ b`, with both blank lines intact. -/
theorem chunkText_blank_lines (limit : Int) (a b t c : List Char) :
    (c ∈ chunkText t limit → isBlank c = false) ∧
    (isBlank a = false → isBlank b = false → '\n' ∉ a → '\n' ∉ b →
      (a.length : Int) + 3 + (b.length : Int) ≤ limit →
      chunkText (a ++ '\n' :: '\n' :: '\n' :: b) limit =
        [a ++ '\n' :: '\n' :: '\n' :: b]) := by
  constructor
  · intro hc
    rw [chunkText] at hc
    split at hc
    · simp at hc
    · have := (List.mem_filter.mp hc).2
      simpa using this
  · intro ha hb hna hnb hfit
    have hane : a ≠ [] := by
      intro h; rw [h] at ha; simp [isBlank] at ha
    have hbne : b ≠ [] := by
      intro h; rw [h] at hb; simp [isBlank] at hb
    have halen : 0 < a.length := List.length_pos.mpr hane
    have hblen : 0 < b.length := List.length_pos.mpr hbne
    have hL : 0 < limit := by omega
    have hsplit : splitOnChar '\n' (a ++ '\n' :: '\n' :: '\n' :: b) =
        [a, [], [], b] := by
      rw [splitOnChar_append_cons ('\n' :: '\n' :: b) hna]
      simp [splitOnChar, splitOnChar_of_not_mem hnb]
    have htext : (a ++ '\n' :: '\n' :: '\n' :: b) ≠ [] := by simp [hane]
    have htj : tailJoin '\n' ([[], [], b] : List (List Char)) =
        '\n' :: '\n' :: '\n' :: b := by
      simp [tailJoin]
    have hblanks : ∀ p ∈ ([[], [], b] : List (List Char)),
        isBlank p = true → p = [] := by
      intro p hp hpb
      simp only [List.mem_cons, List.not_mem_nil, or_false] at hp
      rcases hp with rfl | rfl | rfl
      · rfl
      · rfl
      · rw [hb] at hpb
        exact absurd hpb (by simp)
    have hlen2 : a.length +
        (tailJoin '\n' ([[], [], b] : List (List Char))).length ≤
          limit.toNat := by
      rw [htj]
      simp only [List.length_cons]
      omega
    rw [chunkText, if_neg (by push_neg; exact ⟨htext, by omega⟩)]
    rw [hsplit]
    have hpa : ¬ isBlank a = true := by simp [ha]
    have hlen_a : a.length ≤ limit.toNat := by omega
    rw [ct_para_first_eq _ _ hpa hlen_a]
    rw [ctGo_flush limit.toNat [[], [], b] a hane hblanks hlen2]
    rw [htj]
    simp [List.filter_cons, isBlank_append, ha]

/-- Witness for C3 (amended) at `a = "a"`, `b = "b"`, `limit = 10`. -/
theorem chunkText_blank_lines_witness :
    isBlank "a\n\n\nb".toList = false ∧
      chunkText ("a".toList ++ '\n' :: '\n' :: '\n' :: "b".toList) 10 =
        ["a".toList ++ '\n' :: '\n' :: '\n' :: "b".toList] :=
  ⟨(chunkText_blank_lines 10 "a".toList "b".toList "a\n\n\nb".toList
      "a\n\n\nb".toList).1 (by decide),
   (chunkText_blank_lines 10 "a".toList "b".toList "a\n\n\nb".toList
      "a\n\n\nb".toList).2 (by decide) (by decide) (by decide) (by decide)
      (by decide)⟩

/-- C4 counterexample: `"\na"` is non-blank and shorter than the limit 10,
yet `chunkText "\na" 10 = ["a"]`, not `["\na"]` — the leading blank line is
dropped, so packing is not the identity on all short non-blank texts. -/
theorem chunkText_idempotent_cex :
    isBlank "\na".toList = false ∧ (("\na".toList.length : Int) < 10) ∧
      chunkText "\na".toList 10 = ["a".toList] ∧
      chunkText "\na".toList 10 ≠ ["\na".toList] :=
  ⟨by decide, by decide, by decide, by decide⟩

/-- C4 (amended): `chunkText text limit = [text]` for every text shorter
than the limit whose first line is non-blank and whose whitespace-only
lines are all empty (such a text is in particular non-blank).  A leading
blank line is dropped and a whitespace-only line is replaced by a bare
newline, so those texts must be excluded. -/
theorem chunkText_idempotent (text : List Char) (limit : Int)
    (hlen : (text.length : Int) < limit)
    (hhead : isBlank (splitOnChar '\n' text).headI = false)
    (hblank : ∀ p ∈ splitOnChar '\n' text, isBlank p = true → p = []) :
    chunkText text limit = [text] := by
  obtain ⟨p0, ps, hsplit⟩ :=
    List.exists_cons_of_ne_nil (splitOnChar_ne_nil '\n' text)
  rw [hsplit] at hhead hblank
  simp only [List.headI] at hhead
  have hp0ne : p0 ≠ [] := by
    intro h; rw [h] at hhead; simp [isBlank] at hhead
  have htextne : text ≠ [] := by
    intro h
    rw [h] at hsplit
    simp only [splitOnChar] at hsplit
    have : p0 = [] := by
      have := congrArg List.headI hsplit
      simpa [List.headI] using this.symm
    exact hp0ne this
  have hL : 0 < limit := by
    have : (0 : Int) ≤ (text.length : Int) := by positivity
    omega
  have hrejoin : text = p0 ++ tailJoin '\n' ps := by
    conv_lhs => rw [← rejoin_splitOnChar '\n' text]
    rw [hsplit, rejoin_cons]
  have hlen_eq : text.length = p0.length + (tailJoin '\n' ps).length := by
    rw [hrejoin, List.length_append]
  rw [chunkText, if_neg (by push_neg; exact ⟨htextne, by omega⟩)]
  rw [hsplit]
  have hpa : ¬ isBlank p0 = true := by simp [hhead]
  have hlen_p0 : p0.length ≤ limit.toNat := by omega
  rw [ct_para_first_eq _ _ hpa hlen_p0]
  rw [ctGo_flush limit.toNat ps p0 hp0ne
    (fun q hq hqb => hblank q (List.mem_cons_of_mem p0 hq) hqb)
    (by omega)]
  rw [← hrejoin]
  have htb : isBlank text = false := by
    rw [hrejoin, isBlank_append]
    simp [hhead]
  simp [List.filter_cons, htb]

/-- Witness for C4 (amended) at `text = "ab"`, `limit = 10`. -/
theorem chunkText_idempotent_witness :
    chunkText "ab".toList 10 = ["ab".toList] :=
  chunkText_idempotent "ab".toList 10 (by decide) (by decide) (by decide)

/-- C5: for every positive limit and every text, concatenating all chunks
in order and erasing whitespace yields exactly the input with whitespace
erased: no non-whitespace character is dropped, duplicated or reordered. -/
theorem chunkText_content (text : List Char) (limit : Int) (hL : 0 < limit) :
    nonWS (chunkText text limit).flatten = nonWS text := by
  rw [chunkText]
  split
  · rename_i h
    rcases h with rfl | h
    · simp [nonWS]
    · omega
  · rw [nonWS_flatten_filter, ctGo_nonWS, nonWS_nil, List.nil_append,
      nonWS_join_splitOnChar (by decide)]

/-- Witness for C5 at `text = "one two\n\nthree"`, `limit = 5`. -/
theorem chunkText_content_witness :
    nonWS (chunkText "one two\n\nthree".toList 5).flatten =
      nonWS "one two\n\nthree".toList :=
  chunkText_content "one two\n\nthree".toList 5 (by decide)

/-- C6: degenerate inputs — empty text or non-positive limit — yield the
empty chunk sequence; the function is total, so no error is raised. -/
theorem chunkText_degenerate (text : List Char) (limit : Int)
    (h : text = [] ∨ limit ≤ 0) : chunkText text limit = [] := by
  rw [chunkText, if_pos h]

/-- Witness for C6 at `("", 5)` and `("x", 0)`. -/
theorem chunkText_degenerate_witness :
    chunkText [] 5 = [] ∧ chunkText "x".toList 0 = [] :=
  ⟨chunkText_degenerate [] 5 (Or.inl rfl),
   chunkText_degenerate "x".toList 0 (Or.inr (by decide))⟩

/-- C7: no element of any `chunkText` result is the empty string or
whitespace-only. -/
theorem chunkText_no_blank_chunk (text : List Char) (limit : Int)
    (c : List Char) (hc : c ∈ chunkText text limit) :
    c ≠ [] ∧ c.all Char.isWhitespace = false := by
  rw [chunkText] at hc
  split at hc
  · simp at hc
  · have hfl := (List.mem_filter.mp hc).2
    have hbl : isBlank c = false := by simpa using hfl
    refine ⟨?_, hbl⟩
    intro h
    rw [h] at hbl
    simp [isBlank] at hbl

/-- Witness for C7 at `text = "hi"`, `limit = 9`. -/
theorem chunkText_no_blank_chunk_witness :
    "hi".toList ≠ [] ∧ "hi".toList.all Char.isWhitespace = false :=
  chunkText_no_blank_chunk "hi".toList 9 "hi".toList (by decide)

/-- C8: termination facts for the chunking loops.  With a non-positive
limit the guard of `splitLongWord` returns at once and its loop is never
entered; with a positive limit each iteration of the loop removes exactly
`limit` characters from the remaining word, strictly shrinking it.  (All
three functions are total Lean definitions — `splitLongWordGo` is accepted
by the termination checker with measure `cur.length`, and the other loops
are structural — so every call terminates.) -/
theorem chunking_terminates :
    (∀ (w : List Char) (m : Int), m ≤ 0 → splitLongWord w m = []) ∧
    (∀ (L : Nat) (cur : List Char), 0 < L → L < cur.length →
      splitLongWordGo L cur =
        cur.take L :: splitLongWordGo L (cur.drop L) ∧
      (cur.drop L).length + L = cur.length ∧
      (cur.drop L).length < cur.length) := by
  constructor
  · intro w m hm
    rw [splitLongWord, if_pos (Or.inr hm)]
  · intro L cur hL hlt
    refine ⟨?_, ?_, ?_⟩
    · rw [splitLongWordGo, dif_pos ⟨hL, hlt⟩]
    · rw [List.length_drop]
      omega
    · rw [List.length_drop]
      omega

/-- Witness for C8 at `splitLongWord "x" (-1)` and the loop step for
`L = 1`, `cur = "ab"`. -/
theorem chunking_terminates_witness :
    splitLongWord "x".toList (-1) = [] ∧
      ("ab".toList.drop 1).length < "ab".toList.length :=
  ⟨chunking_terminates.1 "x".toList (-1) (by decide),
   (chunking_terminates.2 1 "ab".toList (by decide) (by decide)).2.2⟩

/-- C9: `splitLongWord` is total beyond its stated precondition: an empty
word or a non-positive limit yields `[]`, and a non-empty word no longer
than a positive limit is returned unchanged as the singleton `[w]`. -/
theorem splitLongWord_total (w : List Char) (limit : Int) :
    ((w = [] ∨ limit ≤ 0) → splitLongWord w limit = []) ∧
    (w ≠ [] → 0 < limit → (w.length : Int) ≤ limit →
      splitLongWord w limit = [w]) := by
  constructor
  · intro h
    rw [splitLongWord, if_pos h]
  · intro hw hpos hle
    have hwlen : 0 < w.length := List.length_pos.mpr hw
    rw [splitLongWord_eq_go w limit hw hpos]
    rw [splitLongWordGo, dif_neg (by intro hcontra; omega)]
    rw [if_pos hwlen]

/-- Witness for C9 at `([], 5)` and `("abc", 5)`. -/
theorem splitLongWord_total_witness :
    splitLongWord [] 5 = [] ∧ splitLongWord "abc".toList 5 = ["abc".toList] :=
  ⟨(splitLongWord_total [] 5).1 (Or.inl rfl),
   (splitLongWord_total "abc".toList 5).2 (by decide) (by decide) (by decide)⟩

/-- C10: for a positive limit, every chunk produced by
`splitParagraphByWords` is space-normalised: non-empty, no leading space,
no trailing space, and no two adjacent spaces (runs of spaces in the
paragraph collapse to single-space separators). -/
theorem splitParagraphByWords_spaceNormalized (p : List Char) (limit : Int)
    (c : List Char) (hL : 0 < limit) (hc : c ∈ splitParagraphByWords p limit) :
    c ≠ [] ∧ c.head? ≠ some ' ' ∧ c.getLast? ≠ some ' ' ∧
      noDoubleSpace c = true := by
  rw [splitParagraphByWords] at hc
  split at hc
  · simp at hc
  · exact spwGo_spaceNormalized limit.toNat _ [] (by omega)
      (fun w hw => sep_not_mem_of_mem_splitOnChar hw) (Or.inl rfl) c hc

/-- Witness for C10 at `p = "a  b"`, `limit = 10`, chunk `"a b"`. -/
theorem splitParagraphByWords_spaceNormalized_witness :
    "a b".toList ≠ [] ∧ "a b".toList.head? ≠ some ' ' ∧
      "a b".toList.getLast? ≠ some ' ' ∧ noDoubleSpace "a b".toList = true :=
  splitParagraphByWords_spaceNormalized "a  b".toList 10 "a b".toList
    (by decide) (by decide)
